import Mathlib

/-!
Verification of the PhishTank phishing-infrastructure analysis pipeline.

This file gives a shallow embedding of the graph construction, degree
filtering and temporal aggregation logic of the repository (`app.py`,
`most_ips.py`, `most_domains.py`, `most_targets.py`, `test.py`) and proves
properties of it.  The graph operations follow the semantics of the
`networkx.Graph` methods actually invoked by the scripts:

* `add_node(k, type=kd)` on an existing node *updates* the node's
  attribute dictionary (so a later insertion of the same key with a
  different `type` overwrites the earlier kind); on a fresh key it appends
  the node in insertion order.
* `add_edge(u, v)` inserts the undirected edge `{u, v}` if it is not
  already present; re-inserting an existing edge leaves the edge set
  unchanged.  `networkx.Graph` permits self-loops (`u = v`).  In every
  call site of the repository `add_edge` is preceded by `add_node` for
  both endpoints, so the embedding does not re-add endpoint nodes.
* `G.degree(n)` is the number of adjacent nodes, counting a self-loop at
  `n` one extra time (networkx counts both stubs of a self-loop).
* `G.subgraph(S)` is the induced subgraph: the nodes of `G` whose key
  lies in `S` and the edges of `G` with both endpoints in `S`.

Edge attributes (`relation="HOSTED_ON"`) are constant on every edge of a
given build and are therefore not carried in the embedding.
-/

/-- The three node kinds used by the scripts (the `type` node attribute). -/
inductive NodeKind where
  | domain
  | ip
  | target
deriving DecidableEq, Repr

/-- An undirected graph in the style of `networkx.Graph` as used by the
scripts: nodes are `(key, type)` pairs kept in insertion order, edges are
kept as the ordered pairs in which they were first inserted, and an edge
`(u, v)` also represents `(v, u)`. -/
structure Graph where
  nodes : List (String × NodeKind)
  edges : List (String × String)
deriving DecidableEq, Repr

/-- The empty graph `nx.Graph()`. -/
def Graph.empty : Graph := ⟨[], []⟩

/-- Whether a node with the given key is present. -/
def hasNode (G : Graph) (k : String) : Bool :=
  G.nodes.any (fun p => decide (p.1 = k))

/-- `G.add_node(k, type=kd)`: appends a fresh node, or updates the `type`
attribute of an existing node with the same key (networkx semantics). -/
def add_node (G : Graph) (k : String) (kd : NodeKind) : Graph :=
  if hasNode G k then
    { G with nodes := G.nodes.map (fun p => if p.1 = k then (k, kd) else p) }
  else
    { G with nodes := G.nodes ++ [(k, kd)] }

/-- Whether the undirected edge `{u, v}` is present. -/
def edgeMem (G : Graph) (u v : String) : Bool :=
  G.edges.any (fun e => (decide (e.1 = u) && decide (e.2 = v)) ||
                        (decide (e.1 = v) && decide (e.2 = u)))

/-- `G.add_edge(u, v)`: inserts the undirected edge if absent, otherwise a
no-op on the edge list.  (In the scripts both endpoints have always been
added with `add_node` immediately before.) -/
def add_edge (G : Graph) (u v : String) : Graph :=
  if edgeMem G u v then G else { G with edges := G.edges ++ [(u, v)] }

/-- The keys of the graph's nodes, in insertion order. -/
def nodeKeys (G : Graph) : List String := G.nodes.map Prod.fst

/-- The current `type` attribute of the node with key `k`. -/
def kindOf (G : Graph) (k : String) : Option NodeKind :=
  (G.nodes.find? (fun p => decide (p.1 = k))).map Prod.snd

/-- The distinct neighbors of `n` (the keys adjacent to `n`). -/
def neighbors (G : Graph) (n : String) : List String :=
  (nodeKeys G).filter (fun m => edgeMem G n m)

/-- `G.degree(n)`: number of adjacent nodes, a self-loop counting twice
(networkx `Graph.degree` semantics). -/
def degree (G : Graph) (n : String) : Nat :=
  (neighbors G n).length + (if edgeMem G n n then 1 else 0)

/-- The two threshold comparison policies present in the source: strict
(`degree > min_degree`, tab 1 / `most_ips.py`) and inclusive
(`degree >= min_degree`, tabs 2 and 3). -/
inductive CmpMode where
  | strict
  | inclusive
deriving DecidableEq, Repr

/-- Whether a degree `d` satisfies threshold `t` under the given mode. -/
def degSatisfies (mode : CmpMode) (d t : Nat) : Bool :=
  match mode with
  | .strict => decide (t < d)
  | .inclusive => decide (t ≤ d)

/-- Hub selection with an explicitly selectable comparison mode: the nodes
of the given kind whose degree satisfies the threshold, in node iteration
order (`for node, degree in G.degree()` with the filter condition of the
source list comprehensions). -/
def selectHubs (G : Graph) (kd : NodeKind) (mode : CmpMode) (t : Nat) : List String :=
  (G.nodes.filter
     (fun p => degSatisfies mode (degree G p.1) t && decide (p.2 = kd))).map Prod.fst

/-- `high_degree_ips` from tab 1 of `app.py` (strict comparison). -/
def high_degree_ips (G : Graph) (min_degree_ip : Nat) : List String :=
  (G.nodes.filter
     (fun p => decide (min_degree_ip < degree G p.1) && decide (p.2 = NodeKind.ip))).map Prod.fst

/-- `high_degree_domains` from tab 2 of `app.py` (inclusive comparison). -/
def high_degree_domains (G : Graph) (min_degree_domain : Nat) : List String :=
  (G.nodes.filter
     (fun p => decide (min_degree_domain ≤ degree G p.1) && decide (p.2 = NodeKind.domain))).map Prod.fst

/-- `high_degree_targets` from tab 3 of `app.py` (inclusive comparison). -/
def high_degree_targets (G : Graph) (min_degree_target : Nat) : List String :=
  (G.nodes.filter
     (fun p => decide (min_degree_target ≤ degree G p.1) && decide (p.2 = NodeKind.target))).map Prod.fst

/-- The working node set (`nodes_to_draw`): each hub together with all of
its direct neighbors.  The source builds a Python set; only membership in
the collection is consumed downstream. -/
def nodes_to_draw (G : Graph) (hubs : List String) : List String :=
  hubs.flatMap (fun h => h :: neighbors G h)

/-- `G.subgraph(S)`: the induced subgraph on the keys in `S`. -/
def subgraph (G : Graph) (S : List String) : Graph :=
  { nodes := G.nodes.filter (fun p => decide (p.1 ∈ S)),
    edges := G.edges.filter (fun e => decide (e.1 ∈ S) && decide (e.2 ∈ S)) }

/-- `G.number_of_nodes()`. -/
def numberOfNodes (G : Graph) : Nat := G.nodes.length

/-- `G.number_of_edges()`. -/
def numberOfEdges (G : Graph) : Nat := G.edges.length

/-- One iteration of the graph-building loop shared by the three tabs:
`G.add_node(a, type=k1); G.add_node(b, type=k2); G.add_edge(a, b)`. -/
def addRow (k1 k2 : NodeKind) (G : Graph) (r : String × String) : Graph :=
  add_edge (add_node (add_node G r.1 k1) r.2 k2) r.1 r.2

/-- The graph-building loop over the relation table rows (tab 1 uses
`k1 = domain, k2 = ip`; tab 3 uses `k1 = domain, k2 = target`). -/
def buildGraph (k1 k2 : NodeKind) (rows : List (String × String)) : Graph :=
  rows.foldl (addRow k1 k2) Graph.empty

/-! ### Basic lemmas about the graph operations -/

theorem edges_add_node (G : Graph) (k : String) (kd : NodeKind) :
    (add_node G k kd).edges = G.edges := by
  unfold add_node; split <;> rfl

theorem nodes_add_edge (G : Graph) (u v : String) :
    (add_edge G u v).nodes = G.nodes := by
  unfold add_edge; split <;> rfl

theorem mem_nodeKeys_add_node (G : Graph) (k : String) (kd : NodeKind) (n : String) :
    n ∈ nodeKeys (add_node G k kd) ↔ n ∈ nodeKeys G ∨ n = k := by
  unfold add_node
  by_cases h : hasNode G k = true
  · rw [if_pos h]
    have hk : k ∈ nodeKeys G := by
      rcases List.any_eq_true.mp h with ⟨p, hp, hpk⟩
      have : p.1 = k := of_decide_eq_true hpk
      exact this ▸ List.mem_map.mpr ⟨p, hp, rfl⟩
    have keyEq : nodeKeys { G with nodes := G.nodes.map (fun p => if p.1 = k then (k, kd) else p) } = nodeKeys G := by
      unfold nodeKeys
      simp only [List.map_map]
      apply List.map_congr_left
      intro p _
      by_cases hpk : p.1 = k <;> simp [hpk]
    rw [keyEq]
    constructor
    · exact Or.inl
    · rintro (hn | rfl)
      · exact hn
      · exact hk
  · rw [if_neg h]
    unfold nodeKeys
    simp [List.mem_append]

theorem edgeMem_symm (G : Graph) (a b : String) :
    edgeMem G a b = edgeMem G b a := by
  rw [Bool.eq_iff_iff]
  unfold edgeMem
  simp only [List.any_eq_true]
  constructor <;>
  · rintro ⟨e, he, hcond⟩
    exact ⟨e, he, by revert hcond; simp; tauto⟩

theorem edgeMem_add_edge (G : Graph) (u v a b : String) :
    edgeMem (add_edge G u v) a b = true ↔
      edgeMem G a b = true ∨ ((a = u ∧ b = v) ∨ (a = v ∧ b = u)) := by
  unfold add_edge
  by_cases h : edgeMem G u v = true
  · rw [if_pos h]
    constructor
    · exact Or.inl
    · rintro (hm | ⟨rfl, rfl⟩ | ⟨rfl, rfl⟩)
      · exact hm
      · exact h
      · rw [edgeMem_symm]; exact h
  · rw [if_neg h]
    unfold edgeMem
    simp only [List.any_append, List.any_cons, List.any_nil, Bool.or_false,
      Bool.or_eq_true, Bool.and_eq_true, decide_eq_true_eq]
    constructor
    · rintro (hm | (⟨rfl, rfl⟩ | ⟨rfl, rfl⟩))
      · exact Or.inl hm
      · exact Or.inr (Or.inl ⟨rfl, rfl⟩)
      · exact Or.inr (Or.inr ⟨rfl, rfl⟩)
    · rintro (hm | (⟨rfl, rfl⟩ | ⟨rfl, rfl⟩))
      · exact Or.inl hm
      · exact Or.inr (Or.inl ⟨rfl, rfl⟩)
      · exact Or.inr (Or.inr ⟨rfl, rfl⟩)

theorem edgeMem_add_node (G : Graph) (k : String) (kd : NodeKind) (a b : String) :
    edgeMem (add_node G k kd) a b = edgeMem G a b := by
  unfold edgeMem
  rw [edges_add_node]

/-- Membership in the working node set: a key is drawn exactly when it is a
hub or a direct neighbor of a hub. -/
theorem mem_nodes_to_draw (G : Graph) (hubs : List String) (n : String) :
    n ∈ nodes_to_draw G hubs ↔ ∃ h ∈ hubs, n = h ∨ n ∈ neighbors G h := by
  unfold nodes_to_draw
  simp [List.mem_flatMap]

/-- Membership characterization of hub selection. -/
theorem mem_selectHubs (G : Graph) (kd : NodeKind) (mode : CmpMode) (t : Nat) (n : String) :
    n ∈ selectHubs G kd mode t ↔
      (n, kd) ∈ G.nodes ∧ degSatisfies mode (degree G n) t = true := by
  unfold selectHubs
  simp only [List.mem_map, List.mem_filter, Bool.and_eq_true, decide_eq_true_eq]
  constructor
  · rintro ⟨p, ⟨hp, hdeg, hkind⟩, hfst⟩
    rcases p with ⟨a, b⟩
    cases hfst
    cases hkind
    exact ⟨hp, hdeg⟩
  · rintro ⟨hp, hdeg⟩
    exact ⟨(n, kd), ⟨hp, hdeg, rfl⟩, rfl⟩

/-- Filtering with a pointwise stronger predicate yields a shorter list. -/
theorem length_filter_mono {α : Type} (l : List α) (p q : α → Bool)
    (h : ∀ x, p x = true → q x = true) :
    (l.filter p).length ≤ (l.filter q).length := by
  induction l with
  | nil => exact Nat.le_refl 0
  | cons x xs ih =>
    rw [List.filter_cons, List.filter_cons]
    by_cases hp : p x = true
    · rw [if_pos hp, if_pos (h x hp), List.length_cons, List.length_cons]
      exact Nat.succ_le_succ ih
    · rw [if_neg hp]
      by_cases hq : q x = true
      · rw [if_pos hq, List.length_cons]
        exact Nat.le_succ_of_le ih
      · rw [if_neg hq]
        exact ih

/-! ### Claim theorems: degree filtering (C1 - C4) -/

/-- C1: For every graph, kind, comparison mode and threshold, the
degree-filtered result is closure-sound: every node of the induced
subgraph is a selected hub or a direct (one-hop) neighbor of a selected
hub (so neighbors-of-neighbors are never included); every edge of the
induced subgraph has both endpoints in the working node set; and every
edge of the full graph with both endpoints in the working node set is
included in the induced subgraph. -/
theorem degree_filter_closure_sound (G : Graph) (kd : NodeKind) (mode : CmpMode) (t : Nat) :
    (∀ n ∈ nodeKeys (subgraph G (nodes_to_draw G (selectHubs G kd mode t))),
        n ∈ selectHubs G kd mode t ∨ ∃ h ∈ selectHubs G kd mode t, n ∈ neighbors G h) ∧
    (∀ e ∈ (subgraph G (nodes_to_draw G (selectHubs G kd mode t))).edges,
        e.1 ∈ nodes_to_draw G (selectHubs G kd mode t) ∧
        e.2 ∈ nodes_to_draw G (selectHubs G kd mode t)) ∧
    (∀ e ∈ G.edges,
        e.1 ∈ nodes_to_draw G (selectHubs G kd mode t) →
        e.2 ∈ nodes_to_draw G (selectHubs G kd mode t) →
        e ∈ (subgraph G (nodes_to_draw G (selectHubs G kd mode t))).edges) := by
  refine ⟨?_, ?_, ?_⟩
  · intro n hn
    rcases List.mem_map.mp hn with ⟨p, hp, hfst⟩
    have hmem : p.1 ∈ nodes_to_draw G (selectHubs G kd mode t) := by
      have := (List.mem_filter.mp hp).2
      exact of_decide_eq_true this
    rw [← hfst]
    rcases (mem_nodes_to_draw G _ p.1).mp hmem with ⟨h, hh, rfl | hnb⟩
    · exact Or.inl hh
    · exact Or.inr ⟨h, hh, hnb⟩
  · intro e he
    have hcond := (List.mem_filter.mp he).2
    rw [Bool.and_eq_true] at hcond
    exact ⟨of_decide_eq_true hcond.1, of_decide_eq_true hcond.2⟩
  · intro e he h1 h2
    exact List.mem_filter.mpr ⟨he, by simp [h1, h2]⟩

/-- Witness for C1 on the spec's concrete scenario graph. -/
theorem degree_filter_closure_sound_witness :
    ("d1" ∈ selectHubs (buildGraph .domain .ip [("d1","ip1"),("d1","ip2"),("d2","ip1"),("d3","ip1")]) .ip .inclusive 2 ∨
      ∃ h ∈ selectHubs (buildGraph .domain .ip [("d1","ip1"),("d1","ip2"),("d2","ip1"),("d3","ip1")]) .ip .inclusive 2,
        "d1" ∈ neighbors (buildGraph .domain .ip [("d1","ip1"),("d1","ip2"),("d2","ip1"),("d3","ip1")]) h) ∧
    ("d2", "ip1") ∈ (subgraph (buildGraph .domain .ip [("d1","ip1"),("d1","ip2"),("d2","ip1"),("d3","ip1")])
        (nodes_to_draw (buildGraph .domain .ip [("d1","ip1"),("d1","ip2"),("d2","ip1"),("d3","ip1")])
          (selectHubs (buildGraph .domain .ip [("d1","ip1"),("d1","ip2"),("d2","ip1"),("d3","ip1")]) .ip .inclusive 2))).edges := by
  constructor
  · exact (degree_filter_closure_sound (buildGraph .domain .ip [("d1","ip1"),("d1","ip2"),("d2","ip1"),("d3","ip1")]) .ip .inclusive 2).1 "d1" (by decide)
  · exact (degree_filter_closure_sound (buildGraph .domain .ip [("d1","ip1"),("d1","ip2"),("d2","ip1"),("d3","ip1")]) .ip .inclusive 2).2.2 ("d2", "ip1") (by decide) (by decide) (by decide)

/-- C2: hub selection supports two explicitly selectable threshold
comparison policies: strict mode selects exactly the nodes of the
filtered kind with `degree > t`, inclusive mode exactly those with
`degree >= t`; the tab-1 IP hub filter is the strict mode, and the tab-2
domain and tab-3 target hub filters are the inclusive mode. -/
theorem hub_selection_modes (G : Graph) (kd : NodeKind) (t : Nat) (n : String) :
    (n ∈ selectHubs G kd CmpMode.strict t ↔ (n, kd) ∈ G.nodes ∧ t < degree G n) ∧
    (n ∈ selectHubs G kd CmpMode.inclusive t ↔ (n, kd) ∈ G.nodes ∧ t ≤ degree G n) ∧
    high_degree_ips G t = selectHubs G NodeKind.ip CmpMode.strict t ∧
    high_degree_domains G t = selectHubs G NodeKind.domain CmpMode.inclusive t ∧
    high_degree_targets G t = selectHubs G NodeKind.target CmpMode.inclusive t := by
  refine ⟨?_, ?_, rfl, rfl, rfl⟩
  · rw [mem_selectHubs]
    unfold degSatisfies
    simp
  · rw [mem_selectHubs]
    unfold degSatisfies
    simp

theorem degSatisfies_antitone (mode : CmpMode) (d t1 t2 : Nat) (h : t1 ≤ t2) :
    degSatisfies mode d t2 = true → degSatisfies mode d t1 = true := by
  cases mode <;> unfold degSatisfies <;> intro hc <;>
    simp only [decide_eq_true_eq] at hc ⊢ <;> omega

theorem selectHubs_antitone_mem (G : Graph) (kd : NodeKind) (mode : CmpMode)
    (t1 t2 : Nat) (h : t1 ≤ t2) (n : String) :
    n ∈ selectHubs G kd mode t2 → n ∈ selectHubs G kd mode t1 := by
  rw [mem_selectHubs, mem_selectHubs]
  rintro ⟨hmem, hdeg⟩
  exact ⟨hmem, degSatisfies_antitone mode _ t1 t2 h hdeg⟩

theorem nodes_to_draw_antitone_mem (G : Graph) (kd : NodeKind) (mode : CmpMode)
    (t1 t2 : Nat) (h : t1 ≤ t2) (n : String) :
    n ∈ nodes_to_draw G (selectHubs G kd mode t2) →
    n ∈ nodes_to_draw G (selectHubs G kd mode t1) := by
  rw [mem_nodes_to_draw, mem_nodes_to_draw]
  rintro ⟨hb, hh, hcase⟩
  exact ⟨hb, selectHubs_antitone_mem G kd mode t1 t2 h hb hh, hcase⟩

/-- C3: the degree filter is antitone in the threshold: raising
`min_degree` never increases the hub count, the induced subgraph's node
count, or its edge count. -/
theorem degree_filter_antitone (G : Graph) (kd : NodeKind) (mode : CmpMode)
    (t1 t2 : Nat) (h : t1 ≤ t2) :
    (selectHubs G kd mode t2).length ≤ (selectHubs G kd mode t1).length ∧
    numberOfNodes (subgraph G (nodes_to_draw G (selectHubs G kd mode t2))) ≤
      numberOfNodes (subgraph G (nodes_to_draw G (selectHubs G kd mode t1))) ∧
    numberOfEdges (subgraph G (nodes_to_draw G (selectHubs G kd mode t2))) ≤
      numberOfEdges (subgraph G (nodes_to_draw G (selectHubs G kd mode t1))) := by
  refine ⟨?_, ?_, ?_⟩
  · unfold selectHubs
    rw [List.length_map, List.length_map]
    apply length_filter_mono
    intro p hp
    rw [Bool.and_eq_true] at hp ⊢
    exact ⟨degSatisfies_antitone mode _ t1 t2 h hp.1, hp.2⟩
  · unfold numberOfNodes subgraph
    apply length_filter_mono
    intro p hp
    exact decide_eq_true_eq.mpr
      (nodes_to_draw_antitone_mem G kd mode t1 t2 h p.1 (of_decide_eq_true hp))
  · unfold numberOfEdges subgraph
    apply length_filter_mono
    intro e he
    rw [Bool.and_eq_true] at he ⊢
    exact ⟨decide_eq_true_eq.mpr
        (nodes_to_draw_antitone_mem G kd mode t1 t2 h e.1 (of_decide_eq_true he.1)),
      decide_eq_true_eq.mpr
        (nodes_to_draw_antitone_mem G kd mode t1 t2 h e.2 (of_decide_eq_true he.2))⟩

/-- Witness for C3 on the spec's concrete scenario graph with
thresholds 1 and 3. -/
theorem degree_filter_antitone_witness :
    (selectHubs (buildGraph .domain .ip [("d1","ip1"),("d1","ip2"),("d2","ip1"),("d3","ip1")]) .ip .inclusive 3).length ≤
      (selectHubs (buildGraph .domain .ip [("d1","ip1"),("d1","ip2"),("d2","ip1"),("d3","ip1")]) .ip .inclusive 1).length ∧
    numberOfNodes (subgraph (buildGraph .domain .ip [("d1","ip1"),("d1","ip2"),("d2","ip1"),("d3","ip1")])
        (nodes_to_draw (buildGraph .domain .ip [("d1","ip1"),("d1","ip2"),("d2","ip1"),("d3","ip1")])
          (selectHubs (buildGraph .domain .ip [("d1","ip1"),("d1","ip2"),("d2","ip1"),("d3","ip1")]) .ip .inclusive 3))) ≤
      numberOfNodes (subgraph (buildGraph .domain .ip [("d1","ip1"),("d1","ip2"),("d2","ip1"),("d3","ip1")])
        (nodes_to_draw (buildGraph .domain .ip [("d1","ip1"),("d1","ip2"),("d2","ip1"),("d3","ip1")])
          (selectHubs (buildGraph .domain .ip [("d1","ip1"),("d1","ip2"),("d2","ip1"),("d3","ip1")]) .ip .inclusive 1))) ∧
    numberOfEdges (subgraph (buildGraph .domain .ip [("d1","ip1"),("d1","ip2"),("d2","ip1"),("d3","ip1")])
        (nodes_to_draw (buildGraph .domain .ip [("d1","ip1"),("d1","ip2"),("d2","ip1"),("d3","ip1")])
          (selectHubs (buildGraph .domain .ip [("d1","ip1"),("d1","ip2"),("d2","ip1"),("d3","ip1")]) .ip .inclusive 3))) ≤
      numberOfEdges (subgraph (buildGraph .domain .ip [("d1","ip1"),("d1","ip2"),("d2","ip1"),("d3","ip1")])
        (nodes_to_draw (buildGraph .domain .ip [("d1","ip1"),("d1","ip2"),("d2","ip1"),("d3","ip1")])
          (selectHubs (buildGraph .domain .ip [("d1","ip1"),("d1","ip2"),("d2","ip1"),("d3","ip1")]) .ip .inclusive 1))) :=
  degree_filter_antitone (buildGraph .domain .ip [("d1","ip1"),("d1","ip2"),("d2","ip1"),("d3","ip1")])
    .ip .inclusive 1 3 (by decide)

/-- C4: on the concrete relation
`[(d1,ip1), (d1,ip2), (d2,ip1), (d3,ip1)]` with kind `ip` and inclusive
threshold 2, the hub set is exactly `ip1` (degree 3), the induced
subgraph's node keys are exactly `{d1, ip1, d2, d3}` with 3 edges, and
`ip2` together with the edge `d1 - ip2` is excluded. -/
theorem concrete_scenario_tab1 :
    selectHubs (buildGraph .domain .ip [("d1","ip1"),("d1","ip2"),("d2","ip1"),("d3","ip1")]) .ip .inclusive 2 = ["ip1"] ∧
    degree (buildGraph .domain .ip [("d1","ip1"),("d1","ip2"),("d2","ip1"),("d3","ip1")]) "ip1" = 3 ∧
    nodeKeys (subgraph (buildGraph .domain .ip [("d1","ip1"),("d1","ip2"),("d2","ip1"),("d3","ip1")])
        (nodes_to_draw (buildGraph .domain .ip [("d1","ip1"),("d1","ip2"),("d2","ip1"),("d3","ip1")])
          (selectHubs (buildGraph .domain .ip [("d1","ip1"),("d1","ip2"),("d2","ip1"),("d3","ip1")]) .ip .inclusive 2)))
      = ["d1", "ip1", "d2", "d3"] ∧
    numberOfEdges (subgraph (buildGraph .domain .ip [("d1","ip1"),("d1","ip2"),("d2","ip1"),("d3","ip1")])
        (nodes_to_draw (buildGraph .domain .ip [("d1","ip1"),("d1","ip2"),("d2","ip1"),("d3","ip1")])
          (selectHubs (buildGraph .domain .ip [("d1","ip1"),("d1","ip2"),("d2","ip1"),("d3","ip1")]) .ip .inclusive 2)))
      = 3 ∧
    "ip2" ∉ nodeKeys (subgraph (buildGraph .domain .ip [("d1","ip1"),("d1","ip2"),("d2","ip1"),("d3","ip1")])
        (nodes_to_draw (buildGraph .domain .ip [("d1","ip1"),("d1","ip2"),("d2","ip1"),("d3","ip1")])
          (selectHubs (buildGraph .domain .ip [("d1","ip1"),("d1","ip2"),("d2","ip1"),("d3","ip1")]) .ip .inclusive 2))) ∧
    ("d1", "ip2") ∉ (subgraph (buildGraph .domain .ip [("d1","ip1"),("d1","ip2"),("d2","ip1"),("d3","ip1")])
        (nodes_to_draw (buildGraph .domain .ip [("d1","ip1"),("d1","ip2"),("d2","ip1"),("d3","ip1")])
          (selectHubs (buildGraph .domain .ip [("d1","ip1"),("d1","ip2"),("d2","ip1"),("d3","ip1")]) .ip .inclusive 2))).edges := by
  decide

/-! ### Claim theorems: insertion semantics and graph invariants (C5 - C7) -/

theorem find_update (l : List (String × NodeKind)) (k : String) (kd : NodeKind)
    (h : l.any (fun p => decide (p.1 = k)) = true) :
    (l.map (fun p => if p.1 = k then (k, kd) else p)).find?
        (fun p => decide (p.1 = k)) = some (k, kd) := by
  induction l with
  | nil => simp at h
  | cons p tl ih =>
    by_cases hp : p.1 = k
    · simp [List.find?_cons, hp]
    · rw [List.any_cons, Bool.or_eq_true] at h
      have htl : tl.any (fun p => decide (p.1 = k)) = true := by
        rcases h with h1 | h1
        · exact absurd (of_decide_eq_true h1) hp
        · exact h1
      simp only [List.map_cons, if_neg hp, List.find?_cons]
      have : (decide (p.1 = k)) = false := decide_eq_false hp
      rw [this]
      exact ih htl

/-- C5 counterexample: on the relation `[(x, y), (z, x)]` the key `x` is
first inserted with kind `domain`, but the later insertion of `x` as an
ip overwrites the kind attribute: the final kind is `ip`, not the kind
fixed at first insertion.  So re-inserting an existing node is an
attribute update, not a no-op. -/
theorem node_kind_overwritten_counterexample :
    kindOf (buildGraph .domain .ip [("x", "y")]) "x" = some NodeKind.domain ∧
    kindOf (buildGraph .domain .ip [("x", "y"), ("z", "x")]) "x" = some NodeKind.ip := by
  decide

/-- C5 amended: inserting an already-present node leaves the node key
list and the edge list unchanged but overwrites the node's kind
attribute with the newly supplied kind (last insertion wins); inserting
a fresh node appends it; and inserting an already-present edge is a
no-op on the whole graph. -/
theorem insertion_semantics (G : Graph) (k : String) (kd : NodeKind) (u v : String) :
    (hasNode G k = true →
       nodeKeys (add_node G k kd) = nodeKeys G ∧
       kindOf (add_node G k kd) k = some kd ∧
       (add_node G k kd).edges = G.edges) ∧
    (hasNode G k = false → (add_node G k kd).nodes = G.nodes ++ [(k, kd)]) ∧
    (edgeMem G u v = true → add_edge G u v = G) := by
  refine ⟨?_, ?_, ?_⟩
  · intro h
    refine ⟨?_, ?_, edges_add_node G k kd⟩
    · unfold add_node
      rw [if_pos h]
      unfold nodeKeys
      simp only [List.map_map]
      apply List.map_congr_left
      intro p _
      by_cases hpk : p.1 = k <;> simp [hpk]
    · unfold add_node
      rw [if_pos h]
      unfold kindOf
      rw [find_update G.nodes k kd h]
      rfl
  · intro h
    unfold add_node
    rw [if_neg (by simp [h])]
  · intro h
    unfold add_edge
    rw [if_pos h]

/-- Witness for C5's amended statement on a concrete graph. -/
theorem insertion_semantics_witness :
    kindOf (add_node (buildGraph .domain .ip [("x", "y")]) "x" NodeKind.ip) "x" = some NodeKind.ip ∧
    add_edge (buildGraph .domain .ip [("x", "y")]) "x" "y" = buildGraph .domain .ip [("x", "y")] ∧
    (add_node (buildGraph .domain .ip [("x", "y")]) "w" NodeKind.ip).nodes =
      (buildGraph .domain .ip [("x", "y")]).nodes ++ [("w", NodeKind.ip)] := by
  refine ⟨?_, ?_, ?_⟩
  · exact ((insertion_semantics (buildGraph .domain .ip [("x", "y")]) "x" NodeKind.ip "x" "y").1 (by decide)).2.1
  · exact (insertion_semantics (buildGraph .domain .ip [("x", "y")]) "x" NodeKind.ip "x" "y").2.2 (by decide)
  · exact (insertion_semantics (buildGraph .domain .ip [("x", "y")]) "w" NodeKind.ip "x" "y").2.1 (by decide)

theorem mem_edges_addRow (k1 k2 : NodeKind) (G : Graph) (r : String × String)
    (e : String × String) (he : e ∈ (addRow k1 k2 G r).edges) :
    e ∈ G.edges ∨ e = r := by
  unfold addRow at he
  by_cases h : edgeMem (add_node (add_node G r.1 k1) r.2 k2) r.1 r.2 = true
  · unfold add_edge at he
    rw [if_pos h, edges_add_node, edges_add_node] at he
    exact Or.inl he
  · unfold add_edge at he
    rw [if_neg h] at he
    have he2 : e ∈ (add_node (add_node G r.1 k1) r.2 k2).edges ++ [(r.1, r.2)] := he
    rw [edges_add_node, edges_add_node] at he2
    rcases List.mem_append.mp he2 with h1 | h1
    · exact Or.inl h1
    · have h2 : e = (r.1, r.2) := List.mem_singleton.mp h1
      exact Or.inr (h2.trans Prod.mk.eta)

theorem mem_edges_buildGraph_aux (k1 k2 : NodeKind) (rows : List (String × String)) :
    ∀ (G : Graph) (e : String × String),
      e ∈ (rows.foldl (addRow k1 k2) G).edges → e ∈ G.edges ∨ e ∈ rows := by
  induction rows with
  | nil => intro G e he; exact Or.inl he
  | cons r tl ih =>
    intro G e he
    rw [List.foldl_cons] at he
    rcases ih (addRow k1 k2 G r) e he with h1 | h1
    · rcases mem_edges_addRow k1 k2 G r e h1 with h2 | h2
      · exact Or.inl h2
      · exact Or.inr (by rw [h2]; exact List.mem_cons_self r tl)
    · exact Or.inr (List.mem_cons_of_mem r h1)

/-- C6 counterexample: a row whose domain value equals its ip value (the
URL's host literally being the recorded IP) produces a self-loop: on the
relation `[(a, a)]` the built graph's edge list is the self-loop
`(a, a)`. -/
theorem self_loop_counterexample :
    (buildGraph .domain .ip [("a", "a")]).edges = [("a", "a")] ∧
    ∃ e ∈ (buildGraph .domain .ip [("a", "a")]).edges, e.1 = e.2 := by
  decide

/-- C6 amended: the built graph contains no self-loop provided every
row's two values are distinct; a row whose two values coincide produces
a self-loop on that value. -/
theorem no_self_loops_of_distinct_rows (k1 k2 : NodeKind)
    (rows : List (String × String)) (h : ∀ r ∈ rows, r.1 ≠ r.2) :
    ∀ e ∈ (buildGraph k1 k2 rows).edges, e.1 ≠ e.2 := by
  intro e he
  unfold buildGraph at he
  rcases mem_edges_buildGraph_aux k1 k2 rows Graph.empty e he with h1 | h1
  · simp [Graph.empty] at h1
  · exact h e h1

/-- Witness for C6's amended statement on a concrete distinct-valued
relation. -/
theorem no_self_loops_of_distinct_rows_witness :
    ("d1" : String) ≠ "ip1" :=
  no_self_loops_of_distinct_rows .domain .ip [("d1", "ip1")] (by decide)
    ("d1", "ip1") (by decide)

theorem mem_nodeKeys_addRow (k1 k2 : NodeKind) (G : Graph) (r : String × String)
    (n : String) :
    n ∈ nodeKeys (addRow k1 k2 G r) ↔ n ∈ nodeKeys G ∨ (n = r.1 ∨ n = r.2) := by
  unfold addRow
  have h1 : nodeKeys (add_edge (add_node (add_node G r.1 k1) r.2 k2) r.1 r.2) =
      nodeKeys (add_node (add_node G r.1 k1) r.2 k2) := by
    unfold nodeKeys
    rw [nodes_add_edge]
  rw [h1, mem_nodeKeys_add_node, mem_nodeKeys_add_node]
  tauto

theorem edgeMem_addRow (k1 k2 : NodeKind) (G : Graph) (r : String × String)
    (a b : String) :
    edgeMem (addRow k1 k2 G r) a b = true ↔
      edgeMem G a b = true ∨ ((a = r.1 ∧ b = r.2) ∨ (a = r.2 ∧ b = r.1)) := by
  unfold addRow
  rw [edgeMem_add_edge, edgeMem_add_node, edgeMem_add_node]

theorem mem_nodeKeys_buildGraph_aux (k1 k2 : NodeKind) (rows : List (String × String)) :
    ∀ (G : Graph) (n : String),
      n ∈ nodeKeys (rows.foldl (addRow k1 k2) G) ↔
        n ∈ nodeKeys G ∨ ∃ r ∈ rows, n = r.1 ∨ n = r.2 := by
  induction rows with
  | nil => intro G n; simp
  | cons r tl ih =>
    intro G n
    rw [List.foldl_cons, ih, mem_nodeKeys_addRow]
    constructor
    · rintro ((hg | hr) | ⟨r', hr', hc⟩)
      · exact Or.inl hg
      · exact Or.inr ⟨r, List.mem_cons_self r tl, hr⟩
      · exact Or.inr ⟨r', List.mem_cons_of_mem r hr', hc⟩
    · rintro (hg | ⟨r', hr', hc⟩)
      · exact Or.inl (Or.inl hg)
      · rcases List.mem_cons.mp hr' with rfl | htl
        · exact Or.inl (Or.inr hc)
        · exact Or.inr ⟨r', htl, hc⟩

theorem edgeMem_buildGraph_aux (k1 k2 : NodeKind) (rows : List (String × String)) :
    ∀ (G : Graph) (a b : String),
      edgeMem (rows.foldl (addRow k1 k2) G) a b = true ↔
        edgeMem G a b = true ∨ ∃ r ∈ rows, (a = r.1 ∧ b = r.2) ∨ (a = r.2 ∧ b = r.1) := by
  induction rows with
  | nil => intro G a b; simp
  | cons r tl ih =>
    intro G a b
    rw [List.foldl_cons, ih, edgeMem_addRow]
    constructor
    · rintro ((hg | hr) | ⟨r', hr', hc⟩)
      · exact Or.inl hg
      · exact Or.inr ⟨r, List.mem_cons_self r tl, hr⟩
      · exact Or.inr ⟨r', List.mem_cons_of_mem r hr', hc⟩
    · rintro (hg | ⟨r', hr', hc⟩)
      · exact Or.inl (Or.inl hg)
      · rcases List.mem_cons.mp hr' with rfl | htl
        · exact Or.inl (Or.inr hc)
        · exact Or.inr ⟨r', htl, hc⟩

/-- C7: graph construction is idempotent and row-order independent:
building from any permutation of the rows (in particular, building twice
from the same rows) yields the same node key set and the same undirected
edge set. -/
theorem buildGraph_perm_invariant (k1 k2 : NodeKind)
    (rows1 rows2 : List (String × String)) (h : rows1.Perm rows2) :
    (∀ n, n ∈ nodeKeys (buildGraph k1 k2 rows1) ↔ n ∈ nodeKeys (buildGraph k1 k2 rows2)) ∧
    (∀ u v, edgeMem (buildGraph k1 k2 rows1) u v = edgeMem (buildGraph k1 k2 rows2) u v) := by
  constructor
  · intro n
    unfold buildGraph
    rw [mem_nodeKeys_buildGraph_aux, mem_nodeKeys_buildGraph_aux]
    constructor
    · rintro (hg | ⟨r, hr, hc⟩)
      · exact Or.inl hg
      · exact Or.inr ⟨r, h.mem_iff.mp hr, hc⟩
    · rintro (hg | ⟨r, hr, hc⟩)
      · exact Or.inl hg
      · exact Or.inr ⟨r, h.mem_iff.mpr hr, hc⟩
  · intro u v
    rw [Bool.eq_iff_iff]
    unfold buildGraph
    rw [edgeMem_buildGraph_aux, edgeMem_buildGraph_aux]
    constructor
    · rintro (hg | ⟨r, hr, hc⟩)
      · exact Or.inl hg
      · exact Or.inr ⟨r, h.mem_iff.mp hr, hc⟩
    · rintro (hg | ⟨r, hr, hc⟩)
      · exact Or.inl hg
      · exact Or.inr ⟨r, h.mem_iff.mpr hr, hc⟩

/-- Witness for C7 on a concrete relation and a permutation of it. -/
theorem buildGraph_perm_invariant_witness :
    ("d1" ∈ nodeKeys (buildGraph .domain .ip [("d1","ip1"),("d2","ip2")]) ↔
      "d1" ∈ nodeKeys (buildGraph .domain .ip [("d2","ip2"),("d1","ip1")])) ∧
    edgeMem (buildGraph .domain .ip [("d1","ip1"),("d2","ip2")]) "d1" "ip1" =
      edgeMem (buildGraph .domain .ip [("d2","ip2"),("d1","ip1")]) "d1" "ip1" := by
  have h := buildGraph_perm_invariant .domain .ip
    [("d1","ip1"),("d2","ip2")] [("d2","ip2"),("d1","ip1")] (by decide)
  exact ⟨h.1 "d1", h.2 "d1" "ip1"⟩

/-!
### Record normalization and temporal aggregation

`load_data` in `app.py` reads the raw PhishTank records, keeps the first
300, and derives `ip` (first hosting detail's `ip_address`, else absent)
and `domain` (`urlparse(url).netloc` inside `try/except`, `None` on
error).  `load_data_with_time` reads the same file without any row
window and derives a month key from `submission_time`.

`urlparseNetloc` models the netloc path of CPython's
`urllib.parse.urlparse`: tab, CR and LF characters are removed, leading
and trailing C0-control-or-space characters stripped, a well-formed
scheme prefix is dropped, the network location is present only after a
`//` and extends to the next `/`, `?` or `#`, and a bracket mismatch in
the netloc raises `ValueError` (the bracketed-host content validation of
newer CPython is abstracted to this structural bracket check, which is
its raising path relevant here).
-/

/-- A hosting-detail entry; `.get("ip_address")` may be absent. -/
structure Detail where
  ip_address : Option String
deriving DecidableEq, Repr

/-- A calendar timestamp, as much of it as the pipeline consumes. -/
structure Timestamp where
  year : Int
  month : Nat
  day : Nat
deriving DecidableEq, Repr

/-- A raw PhishTank record (the fields that the scripts read). -/
structure RawRecord where
  phish_id : Nat
  url : String
  submission_time : Timestamp
  details : List Detail
  target : Option String
deriving DecidableEq, Repr

/-- A normalized relation row produced by `load_data`. -/
structure Row where
  phish_id : Nat
  url : String
  ip : Option String
  domain : Option String
  target : Option String
deriving DecidableEq, Repr

/-- Characters in a URL scheme after the first: letters, digits, `+`,
`-`, `.`. -/
def isSchemeChar (c : Char) : Bool := c.isAlphanum || c = '+' || c = '-' || c = '.'

/-- Remove tab, carriage-return and line-feed characters anywhere in the
URL (CPython `_UNSAFE_URL_BYTES_TO_REMOVE`). -/
def removeUnsafe (cs : List Char) : List Char :=
  cs.filter (fun c => decide (c ≠ '\t') && decide (c ≠ '\r') && decide (c ≠ '\n'))

/-- Strip leading and trailing C0-control-or-space characters. -/
def stripC0 (cs : List Char) : List Char :=
  ((cs.dropWhile (fun c => decide (c.val ≤ 32))).reverse.dropWhile
      (fun c => decide (c.val ≤ 32))).reverse

/-- Drop a well-formed `scheme:` prefix (nonempty, starting with a
letter, all scheme characters); otherwise return the input unchanged. -/
def dropScheme (cs : List Char) : List Char :=
  let pre := cs.takeWhile (fun c => decide (c ≠ ':'))
  match cs.dropWhile (fun c => decide (c ≠ ':')) with
  | [] => cs
  | _ :: tail =>
    if pre ≠ [] ∧ (pre.headD ' ').isAlpha = true ∧ pre.all isSchemeChar = true then
      tail
    else cs

/-- The network location runs to the next `/`, `?` or `#`. -/
def splitNetlocChars (cs : List Char) : List Char :=
  cs.takeWhile (fun c => decide (c ≠ '/') && decide (c ≠ '?') && decide (c ≠ '#'))

/-- Model of `urlparse(url).netloc`: `Except.error` models the
`ValueError` raised on a bracket mismatch in the netloc. -/
def urlparseNetloc (url : String) : Except String String :=
  let cs := removeUnsafe (stripC0 url.toList)
  let rest := dropScheme cs
  if rest.take 2 = ['/', '/'] then
    let netloc := splitNetlocChars (rest.drop 2)
    if ('[' ∈ netloc ∧ ']' ∉ netloc) ∨ (']' ∈ netloc ∧ '[' ∉ netloc) then
      Except.error "Invalid IPv6 URL"
    else Except.ok (String.mk netloc)
  else Except.ok ""

/-- `extract_domain` from `app.py`: `urlparse(url).netloc` in a
`try/except` that turns any exception into `None`. -/
def extract_domain (url : String) : Option String :=
  match urlparseNetloc url with
  | Except.ok d => some d
  | Except.error _ => none

/-- `extract_ip` from `app.py`: the first hosting detail's
`ip_address`, absent when the detail list is empty. -/
def extract_ip (details : List Detail) : Option String :=
  match details with
  | [] => none
  | d :: _ => d.ip_address

/-- Derivation of one relation row (the two `.apply` columns). -/
def deriveRow (r : RawRecord) : Row :=
  { phish_id := r.phish_id, url := r.url, ip := extract_ip r.details,
    domain := extract_domain r.url, target := r.target }

/-- `load_data` from `app.py`: first 300 records, with derived `ip` and
`domain` columns. -/
def load_data (records : List RawRecord) : List Row :=
  (records.take 300).map deriveRow

/-- `df.dropna(subset=["domain", "ip"])` (tabs 1 and 2). -/
def dropnaDomainIp (rows : List Row) : List Row :=
  rows.filter (fun r => r.domain.isSome && r.ip.isSome)

/-- `df.dropna(subset=["domain", "target"])` (tab 3). -/
def dropnaDomainTarget (rows : List Row) : List Row :=
  rows.filter (fun r => r.domain.isSome && r.target.isSome)

/-- `submission_time.dt.to_period("M")`: the (year, month) bucket key. -/
def monthKey (t : Timestamp) : Int × Nat := (t.year, t.month)

/-- A row of the temporal view built by `load_data_with_time`. -/
structure TimeRow where
  submission_time : Timestamp
  target : Option String
  month_key : Int × Nat
deriving DecidableEq, Repr

/-- Column derivation for one record of the temporal view. -/
def toTimeRow (r : RawRecord) : TimeRow :=
  { submission_time := r.submission_time, target := r.target,
    month_key := monthKey r.submission_time }

/-- `load_data_with_time` from `app.py`: every record of the input file
(no `head(300)` window), with the month key derived. -/
def load_data_with_time (records : List RawRecord) : List TimeRow :=
  records.map toTimeRow

/-- The target values of the selected month bucket
(`df_month["target"]`; `value_counts` ignores missing values). -/
def tab4MonthTargets (records : List RawRecord) (m : Int × Nat) : List String :=
  ((load_data_with_time records).filter
      (fun r => decide (r.month_key = m))).filterMap (fun r => r.target)

/-- C8: domain extraction is total and absent-on-malformed: for every
URL string `extract-domain` returns the parsed network-location
component when parsing succeeds and `none` (never an exception) when the
parser raises; and every row surviving a domain-keyed
`dropna` filter has a present domain, so rows with an absent domain are
excluded from every domain-keyed view. -/
theorem extract_domain_total_and_filtered (url : String) :
    (∀ d, urlparseNetloc url = Except.ok d → extract_domain url = some d) ∧
    (∀ e, urlparseNetloc url = Except.error e → extract_domain url = none) ∧
    (∀ (rec : RawRecord), (deriveRow rec).domain = extract_domain rec.url) ∧
    (∀ (rows : List Row) (r : Row), r ∈ dropnaDomainIp rows → r.domain.isSome = true) ∧
    (∀ (rows : List Row) (r : Row), r ∈ dropnaDomainTarget rows → r.domain.isSome = true) := by
  refine ⟨?_, ?_, fun rec => rfl, ?_, ?_⟩
  · intro d h
    unfold extract_domain
    rw [h]
  · intro e h
    unfold extract_domain
    rw [h]
  · intro rows r hr
    have hc := (List.mem_filter.mp hr).2
    rw [Bool.and_eq_true] at hc
    exact hc.1
  · intro rows r hr
    have hc := (List.mem_filter.mp hr).2
    rw [Bool.and_eq_true] at hc
    exact hc.1

/-- Witness for C8: a well-formed and a malformed (mismatched-bracket)
URL. -/
theorem extract_domain_total_and_filtered_witness :
    extract_domain "http://example.com/x" = some "example.com" ∧
    extract_domain "http://[::1" = none := by
  constructor
  · exact (extract_domain_total_and_filtered "http://example.com/x").1
      "example.com" rfl
  · exact (extract_domain_total_and_filtered "http://[::1").2.1
      "Invalid IPv6 URL" rfl

/-!
### The month-bucket frequency table (`value_counts` / `idxmax`)

`target_counts = df_month["target"].value_counts()` produces one entry
per distinct target (in order of first occurrence) with its frequency,
sorted by count in descending order with ties kept in first-occurrence
order (a stable descending sort).  `non_other = target_counts[index !=
"Other"]` drops the sentinel, and `non_other.idxmax()` returns the index
of the first entry attaining the maximum count.  The sort below is a
structurally recursive stable insertion sort so that it evaluates on
concrete inputs.
-/

/-- Number of occurrences of `t` in the column. -/
def countOcc (vals : List String) (t : String) : Nat :=
  (vals.filter (fun x => decide (x = t))).length

/-- Distinct values in order of first occurrence, skipping those already
seen. -/
def firstOccAux (seen : List String) : List String → List String
  | [] => []
  | v :: rest =>
    if v ∈ seen then firstOccAux seen rest
    else v :: firstOccAux (v :: seen) rest

/-- Distinct values of the column in order of first occurrence (the
hashtable insertion order of `value_counts`). -/
def firstOccList (vals : List String) : List String := firstOccAux [] vals

/-- Insert an entry into a count-descending list, after every entry with
a count `>=` its own (stable: an equal-count entry inserted later goes
after the earlier ones seen so far, and before entries from later in the
original order). -/
def insertCnt (p : String × Nat) : List (String × Nat) → List (String × Nat)
  | [] => [p]
  | q :: rest => if q.2 ≤ p.2 then p :: q :: rest else q :: insertCnt p rest

/-- Stable insertion sort by count, descending. -/
def sortCntDesc : List (String × Nat) → List (String × Nat)
  | [] => []
  | p :: rest => insertCnt p (sortCntDesc rest)

/-- The unsorted counts table: one `(value, count)` entry per distinct
value in first-occurrence order. -/
def countsOf (vals : List String) : List (String × Nat) :=
  (firstOccList vals).map (fun v => (v, countOcc vals v))

/-- `Series.value_counts()`: one `(value, count)` entry per distinct
value, sorted by count descending, ties in first-occurrence order. -/
def value_counts (vals : List String) : List (String × Nat) :=
  sortCntDesc (countsOf vals)

/-- `target_counts[target_counts.index != "Other"]`. -/
def non_other (counts : List (String × Nat)) : List (String × Nat) :=
  counts.filter (fun p => decide (p.1 ≠ "Other"))

/-- `Series.idxmax()`: the index label of the first entry attaining the
maximum value (`none` on an empty series, where pandas raises and the
script's `if not non_other.empty` guard takes the other branch). -/
def idxmax (l : List (String × Nat)) : Option String :=
  (l.find? (fun p => l.all (fun q => decide (q.2 ≤ p.2)))).map Prod.fst

/-- The tab-4 / `test.py` highest-named-target computation:
`non_other.idxmax()` when `non_other` is nonempty, and the explicit
no-named-target result (`none`) otherwise. -/
def mostTargetedNamed (vals : List String) : Option String :=
  idxmax (non_other (value_counts vals))

theorem mem_insertCnt (p p' : String × Nat) (l : List (String × Nat)) :
    p' ∈ insertCnt p l ↔ p' = p ∨ p' ∈ l := by
  induction l with
  | nil => simp [insertCnt]
  | cons q rest ih =>
    unfold insertCnt
    by_cases h : q.2 ≤ p.2
    · rw [if_pos h]
      exact List.mem_cons
    · rw [if_neg h]
      rw [List.mem_cons, ih, List.mem_cons]
      tauto

theorem sublist_insertCnt (p : String × Nat) (l : List (String × Nat)) :
    l.Sublist (insertCnt p l) := by
  induction l with
  | nil => simp [insertCnt]
  | cons q rest ih =>
    unfold insertCnt
    by_cases h : q.2 ≤ p.2
    · rw [if_pos h]
      exact List.Sublist.cons p (List.Sublist.refl _)
    · rw [if_neg h]
      exact List.Sublist.cons₂ q ih

theorem pairwise_insertCnt (p : String × Nat) (l : List (String × Nat))
    (h : l.Pairwise (fun a b => b.2 ≤ a.2)) :
    (insertCnt p l).Pairwise (fun a b => b.2 ≤ a.2) := by
  induction l with
  | nil => simp [insertCnt]
  | cons q rest ih =>
    rw [List.pairwise_cons] at h
    unfold insertCnt
    by_cases hq : q.2 ≤ p.2
    · rw [if_pos hq, List.pairwise_cons]
      constructor
      · intro x hx
        rcases List.mem_cons.mp hx with rfl | hx'
        · exact hq
        · exact Nat.le_trans (h.1 x hx') hq
      · exact List.pairwise_cons.mpr h
    · rw [if_neg hq, List.pairwise_cons]
      constructor
      · intro x hx
        rcases (mem_insertCnt p x rest).mp hx with rfl | hx'
        · exact Nat.le_of_lt (Nat.lt_of_not_le hq)
        · exact h.1 x hx'
      · exact ih h.2

theorem pairwise_sortCntDesc (l : List (String × Nat)) :
    (sortCntDesc l).Pairwise (fun a b => b.2 ≤ a.2) := by
  induction l with
  | nil => simp [sortCntDesc]
  | cons p rest ih => exact pairwise_insertCnt p _ ih

theorem perm_insertCnt (p : String × Nat) (l : List (String × Nat)) :
    (insertCnt p l).Perm (p :: l) := by
  induction l with
  | nil => simp [insertCnt]
  | cons q rest ih =>
    unfold insertCnt
    by_cases h : q.2 ≤ p.2
    · rw [if_pos h]
    · rw [if_neg h]
      exact (List.Perm.cons q ih).trans (List.Perm.swap p q rest)

theorem perm_sortCntDesc (l : List (String × Nat)) :
    (sortCntDesc l).Perm l := by
  induction l with
  | nil => simp [sortCntDesc]
  | cons p rest ih =>
    exact (perm_insertCnt p (sortCntDesc rest)).trans (List.Perm.cons p ih)

theorem stable_insertCnt (p : String × Nat) (c m : List (String × Nat))
    (hsub : c.Sublist m) (hle : ∀ x ∈ c, x.2 ≤ p.2) :
    (p :: c).Sublist (insertCnt p m) := by
  induction m generalizing c with
  | nil =>
    have hc : c = [] := List.sublist_nil.mp hsub
    subst hc
    simp [insertCnt]
  | cons q m' ih =>
    unfold insertCnt
    by_cases hq : q.2 ≤ p.2
    · rw [if_pos hq]
      exact List.Sublist.cons₂ p hsub
    · rw [if_neg hq]
      cases hsub with
      | cons _ h' =>
        exact List.Sublist.cons q (ih c h' hle)
      | cons₂ _ h' =>
        exact absurd (hle q (List.mem_cons_self q _)) hq

theorem stable_sortCntDesc (c l : List (String × Nat))
    (hsub : c.Sublist l) (hp : c.Pairwise (fun a b => b.2 ≤ a.2)) :
    c.Sublist (sortCntDesc l) := by
  induction l generalizing c with
  | nil =>
    have hc : c = [] := List.sublist_nil.mp hsub
    subst hc
    simp [sortCntDesc]
  | cons p rest ih =>
    unfold sortCntDesc
    cases hsub with
    | cons _ h' =>
      exact (ih c h' hp).trans (sublist_insertCnt p (sortCntDesc rest))
    | cons₂ _ h' =>
      rw [List.pairwise_cons] at hp
      exact stable_insertCnt p _ (sortCntDesc rest) (ih _ h' hp.2) hp.1

theorem idxmax_sorted (l : List (String × Nat))
    (h : l.Pairwise (fun a b => b.2 ≤ a.2)) :
    idxmax l = l.head?.map Prod.fst := by
  cases l with
  | nil => rfl
  | cons p rest =>
    unfold idxmax
    rw [List.pairwise_cons] at h
    have hall : ((p :: rest).all (fun q => decide (q.2 ≤ p.2))) = true := by
      rw [List.all_eq_true]
      intro q hq
      rcases List.mem_cons.mp hq with rfl | hq'
      · exact decide_eq_true_eq.mpr (Nat.le_refl _)
      · exact decide_eq_true_eq.mpr (h.1 q hq')
    simp only [List.find?_cons, hall]
    rfl

theorem mem_firstOccAux (vals : List String) :
    ∀ (seen : List String) (a : String),
      a ∈ firstOccAux seen vals ↔ a ∈ vals ∧ a ∉ seen := by
  induction vals with
  | nil => intro seen a; simp [firstOccAux]
  | cons v rest ih =>
    intro seen a
    unfold firstOccAux
    by_cases hv : v ∈ seen
    · rw [if_pos hv, ih seen a, List.mem_cons]
      constructor
      · rintro ⟨h1, h2⟩
        exact ⟨Or.inr h1, h2⟩
      · rintro ⟨h1 | h1, h2⟩
        · exact absurd (h1 ▸ hv) h2
        · exact ⟨h1, h2⟩
    · rw [if_neg hv]
      constructor
      · intro hmem
        rcases List.mem_cons.mp hmem with rfl | hmem'
        · exact ⟨List.mem_cons_self _ _, hv⟩
        · obtain ⟨h1, h2⟩ := (ih (v :: seen) a).mp hmem'
          exact ⟨List.mem_cons_of_mem v h1,
            fun hs => h2 (List.mem_cons_of_mem v hs)⟩
      · rintro ⟨h1, h2⟩
        by_cases hav : a = v
        · subst hav
          exact List.mem_cons_self a _
        · rcases List.mem_cons.mp h1 with h | h
          · exact absurd h hav
          · refine List.mem_cons_of_mem v ((ih (v :: seen) a).mpr ⟨h, ?_⟩)
            intro hmem
            rcases List.mem_cons.mp hmem with h' | h'
            · exact hav h'
            · exact h2 h'

theorem nodup_firstOccAux (vals : List String) :
    ∀ seen : List String, (firstOccAux seen vals).Nodup := by
  induction vals with
  | nil => intro seen; simp [firstOccAux]
  | cons v rest ih =>
    intro seen
    unfold firstOccAux
    by_cases hv : v ∈ seen
    · rw [if_pos hv]
      exact ih seen
    · rw [if_neg hv, List.nodup_cons]
      constructor
      · intro hmem
        exact ((mem_firstOccAux rest (v :: seen) v).mp hmem).2 (List.mem_cons_self v seen)
      · exact ih (v :: seen)

theorem sublist_pair_trichotomy {α : Type} (l : List α) (a b : α) (hab : a ≠ b)
    (ha : a ∈ l) (hb : b ∈ l) : [a, b].Sublist l ∨ [b, a].Sublist l := by
  induction l with
  | nil => cases ha
  | cons x rest ih =>
    rcases List.mem_cons.mp ha with rfl | ha'
    · have hb' : b ∈ rest := by
        rcases List.mem_cons.mp hb with h | h
        · exact absurd h.symm hab
        · exact h
      exact Or.inl (List.Sublist.cons₂ a (List.singleton_sublist.mpr hb'))
    · rcases List.mem_cons.mp hb with rfl | hb'
      · exact Or.inr (List.Sublist.cons₂ b (List.singleton_sublist.mpr ha'))
      · rcases ih ha' hb' with h | h
        · exact Or.inl (List.Sublist.cons x h)
        · exact Or.inr (List.Sublist.cons x h)

theorem not_sublist_pair_head {α : Type} (x y : α) (tail : List α) (hne : x ≠ y)
    (hnd : (y :: tail).Nodup) : ¬ ([x, y].Sublist (y :: tail)) := by
  intro h
  cases h with
  | cons _ h' =>
    exact (List.nodup_cons.mp hnd).1 (h'.subset (by simp))
  | cons₂ _ h' => exact hne rfl

theorem mem_countsOf (vals : List String) (s : String) (hs : s ∈ vals) :
    (s, countOcc vals s) ∈ countsOf vals :=
  List.mem_map.mpr ⟨s, (mem_firstOccAux vals [] s).mpr ⟨hs, by simp⟩, rfl⟩

theorem countsOf_shape (vals : List String) (p : String × Nat) (hp : p ∈ countsOf vals) :
    p = (p.1, countOcc vals p.1) ∧ p.1 ∈ firstOccList vals := by
  rcases List.mem_map.mp hp with ⟨v, hv, rfl⟩
  exact ⟨rfl, hv⟩

theorem nodup_countsOf (vals : List String) : (countsOf vals).Nodup :=
  List.Nodup.map (fun _a _b hab => congrArg Prod.fst hab) (nodup_firstOccAux vals [])

theorem map_fst_countsOf (vals : List String) :
    (countsOf vals).map Prod.fst = firstOccList vals := by
  unfold countsOf
  rw [List.map_map]
  exact List.map_id _

/-- Full characterization of the highest-named-target computation: a
returned target is a value of the bucket, is never the sentinel
`"Other"`, attains the maximum count among non-`"Other"` values, and
wins ties by first encounter (it precedes every equally-counted
non-`"Other"` value in the first-occurrence order of the bucket); and
when every value of the bucket is `"Other"` the result is the explicit
empty result. -/
theorem mostTargetedNamed_spec (vals : List String) :
    (∀ t, mostTargetedNamed vals = some t →
       t ∈ vals ∧ t ≠ "Other" ∧
       (∀ s ∈ vals, s ≠ "Other" → countOcc vals s ≤ countOcc vals t) ∧
       (∀ s ∈ vals, s ≠ "Other" → countOcc vals s = countOcc vals t →
          s = t ∨ [t, s].Sublist (firstOccList vals))) ∧
    ((∀ v ∈ vals, v = "Other") → mostTargetedNamed vals = none) := by
  have hperm : (sortCntDesc (countsOf vals)).Perm (countsOf vals) :=
    perm_sortCntDesc (countsOf vals)
  have hsorted := pairwise_sortCntDesc (countsOf vals)
  have hnd_sorted : (sortCntDesc (countsOf vals)).Nodup :=
    hperm.symm.nodup (nodup_countsOf vals)
  have hfil_sub : (non_other (sortCntDesc (countsOf vals))).Sublist
      (sortCntDesc (countsOf vals)) := List.filter_sublist _
  have hfil_sorted : (non_other (sortCntDesc (countsOf vals))).Pairwise
      (fun a b => b.2 ≤ a.2) := List.Pairwise.sublist hfil_sub hsorted
  have hnd_fil : (non_other (sortCntDesc (countsOf vals))).Nodup :=
    List.Nodup.sublist hfil_sub hnd_sorted
  have hmm : mostTargetedNamed vals = idxmax (non_other (sortCntDesc (countsOf vals))) := rfl
  constructor
  · intro t ht
    rw [hmm, idxmax_sorted _ hfil_sorted] at ht
    cases hfe : non_other (sortCntDesc (countsOf vals)) with
    | nil =>
      rw [hfe] at ht
      simp at ht
    | cons hd tail =>
      rw [hfe] at ht
      simp only [List.head?_cons, Option.map_some'] at ht
      have hhdf : hd ∈ non_other (sortCntDesc (countsOf vals)) := by
        rw [hfe]
        exact List.mem_cons_self _ _
      have hhds : hd ∈ sortCntDesc (countsOf vals) := (List.mem_filter.mp hhdf).1
      have hhdo : hd.1 ≠ "Other" := of_decide_eq_true (List.mem_filter.mp hhdf).2
      have hhdc : hd ∈ countsOf vals := hperm.mem_iff.mp hhds
      obtain ⟨hshape, hfirst⟩ := countsOf_shape vals hd hhdc
      have hhdv : hd.1 ∈ vals := ((mem_firstOccAux vals [] hd.1).mp hfirst).1
      have hhdcnt : hd.2 = countOcc vals hd.1 := congrArg Prod.snd hshape
      have ht' : hd.1 = t := Option.some.inj ht
      subst ht'
      refine ⟨hhdv, hhdo, ?_, ?_⟩
      · intro s hs hso
        have hsfil : (s, countOcc vals s) ∈ non_other (sortCntDesc (countsOf vals)) :=
          List.mem_filter.mpr ⟨hperm.mem_iff.mpr (mem_countsOf vals s hs),
            decide_eq_true_eq.mpr hso⟩
        rw [hfe] at hsfil
        rcases List.mem_cons.mp hsfil with heq | htail
        · rw [show countOcc vals s = hd.2 from congrArg Prod.snd heq, hhdcnt]
        · have hps := hfe ▸ hfil_sorted
          rw [List.pairwise_cons] at hps
          have := hps.1 _ htail
          rw [← hhdcnt]
          exact this
      · intro s hs hso hcnt_eq
        by_cases hst : s = hd.1
        · exact Or.inl hst
        · right
          have hsc : (s, countOcc vals s) ∈ countsOf vals := mem_countsOf vals s hs
          have hpair_ne : (s, countOcc vals s) ≠ hd := by
            intro he
            exact hst (congrArg Prod.fst he)
          rcases sublist_pair_trichotomy (countsOf vals) hd (s, countOcc vals s)
              (fun he => hpair_ne he.symm) hhdc hsc with hts | hst2
          · have hmap := hts.map Prod.fst
            rw [map_fst_countsOf vals] at hmap
            exact hmap
          · exfalso
            have hpw : ([(s, countOcc vals s), hd]).Pairwise (fun a b => b.2 ≤ a.2) := by
              rw [List.pairwise_cons]
              refine ⟨?_, by simp⟩
              intro x hx
              have hx' : x = hd := by
                rcases List.mem_cons.mp hx with h | h
                · exact h
                · cases h
              rw [hx', hhdcnt, ← hcnt_eq]
            have hsort2 := stable_sortCntDesc _ (countsOf vals) hst2 hpw
            have hfil2' := List.Sublist.filter
              (fun p => decide (p.1 ≠ "Other")) hsort2
            have heqf : List.filter (fun p => decide (p.1 ≠ "Other"))
                [(s, countOcc vals s), hd] = [(s, countOcc vals s), hd] := by
              rw [List.filter_cons, List.filter_cons, List.filter_nil,
                if_pos (by simp [hso]), if_pos (by simp [hhdo])]
            rw [heqf] at hfil2'
            have hfil2 : ([(s, countOcc vals s), hd]).Sublist (hd :: tail) := hfe ▸ hfil2'
            exact not_sublist_pair_head _ _ tail hpair_ne (hfe ▸ hnd_fil) hfil2
  · intro hall
    have hfe : non_other (sortCntDesc (countsOf vals)) = [] := by
      rw [List.eq_nil_iff_forall_not_mem]
      intro p hp
      have hp2 : p.1 ≠ "Other" := of_decide_eq_true (List.mem_filter.mp hp).2
      have hpc : p ∈ countsOf vals := hperm.mem_iff.mp (List.mem_filter.mp hp).1
      obtain ⟨_, hpf⟩ := countsOf_shape vals p hpc
      exact hp2 (hall p.1 ((mem_firstOccAux vals [] p.1).mp hpf).1)
    rw [hmm, hfe]
    rfl

/-- C9: for every month bucket's frequency table, the highest-named-
target computation never returns the sentinel `"Other"`: it returns a
maximum-count target among the non-`"Other"` targets of the bucket,
breaks ties deterministically by the stable first-encountered rule (the
winner precedes every equally-counted non-`"Other"` target in the
bucket's first-occurrence order), and returns the explicit
no-named-target result (`none`, rendered as the "No named targets"
message) whenever every record of the bucket has target `"Other"`. -/
theorem monthly_top_named_target (records : List RawRecord) (m : Int × Nat) :
    (∀ t, mostTargetedNamed (tab4MonthTargets records m) = some t →
       t ∈ tab4MonthTargets records m ∧ t ≠ "Other" ∧
       (∀ s ∈ tab4MonthTargets records m, s ≠ "Other" →
          countOcc (tab4MonthTargets records m) s ≤ countOcc (tab4MonthTargets records m) t) ∧
       (∀ s ∈ tab4MonthTargets records m, s ≠ "Other" →
          countOcc (tab4MonthTargets records m) s = countOcc (tab4MonthTargets records m) t →
          s = t ∨ [t, s].Sublist (firstOccList (tab4MonthTargets records m)))) ∧
    ((∀ v ∈ tab4MonthTargets records m, v = "Other") →
       mostTargetedNamed (tab4MonthTargets records m) = none) :=
  mostTargetedNamed_spec (tab4MonthTargets records m)

/-- A concrete month of records for the C9 witness: targets
`Other, Apple, Amazon, Other` in May 2024, so Apple and Amazon tie at
count 1 and Apple is first-encountered. -/
def exampleMonthRecords : List RawRecord :=
  [⟨1, "http://a.com/1", ⟨2024, 5, 1⟩, [], some "Other"⟩,
   ⟨2, "http://a.com/2", ⟨2024, 5, 2⟩, [], some "Apple"⟩,
   ⟨3, "http://a.com/3", ⟨2024, 5, 3⟩, [], some "Amazon"⟩,
   ⟨4, "http://a.com/4", ⟨2024, 5, 4⟩, [], some "Other"⟩]

/-- Witness for C9: in the concrete month the pipeline answers Apple,
which is in the bucket, is not "Other", and beats the tied Amazon by
first encounter. -/
theorem monthly_top_named_target_witness :
    "Apple" ∈ tab4MonthTargets exampleMonthRecords (2024, 5) ∧
    "Apple" ≠ "Other" ∧
    ("Amazon" = "Apple" ∨
      ["Apple", "Amazon"].Sublist (firstOccList (tab4MonthTargets exampleMonthRecords (2024, 5)))) := by
  have h := (monthly_top_named_target exampleMonthRecords (2024, 5)).1 "Apple" rfl
  exact ⟨h.1, h.2.1, h.2.2.2 "Amazon" (by decide) (by decide) (by decide)⟩

/-- C10: the temporal (monthly) aggregation path operates on the whole
input file with no record window: the temporal view has one row per
input record, the selected month's target column equals the targets of
all matching input records, and every record's month key appears in the
month-selector column; whereas the graph-based views' relation table is
the derivation of only the first 300 records. -/
theorem temporal_no_window (records : List RawRecord) (m : Int × Nat) :
    (load_data_with_time records).length = records.length ∧
    tab4MonthTargets records m =
      (records.filter (fun r => decide (monthKey r.submission_time = m))).filterMap
        (fun r => r.target) ∧
    (∀ r ∈ records, monthKey r.submission_time ∈
       (load_data_with_time records).map (fun x => x.month_key)) ∧
    load_data records = (records.take 300).map deriveRow ∧
    (load_data records).length = min records.length 300 := by
  refine ⟨?_, ?_, ?_, rfl, ?_⟩
  · unfold load_data_with_time
    exact List.length_map records toTimeRow
  · unfold tab4MonthTargets load_data_with_time
    rw [List.filter_map, List.filterMap_map]
    have hpred : ((fun r : TimeRow => decide (r.month_key = m)) ∘ toTimeRow) =
        (fun r : RawRecord => decide (monthKey r.submission_time = m)) := rfl
    rw [hpred]
    rfl
  · intro r hr
    unfold load_data_with_time
    rw [List.map_map]
    exact List.mem_map.mpr ⟨r, hr, rfl⟩
  · unfold load_data
    rw [List.length_map, List.length_take]
    exact Nat.min_comm 300 records.length

/-- Witness for C10 on the concrete month of records. -/
theorem temporal_no_window_witness :
    (load_data_with_time exampleMonthRecords).length = exampleMonthRecords.length ∧
    monthKey (Timestamp.mk 2024 5 1) ∈
      (load_data_with_time exampleMonthRecords).map (fun x => x.month_key) := by
  have h := temporal_no_window exampleMonthRecords (2024, 5)
  exact ⟨h.1, h.2.2.1 ⟨1, "http://a.com/1", ⟨2024, 5, 1⟩, [], some "Other"⟩ (by decide)⟩
